import Mathlib

/-
  Verification of the pytrie prefix-tree implementation (src/trie.py).

  Shallow embedding notes.

  A trie node in the source is a Python dict mapping string tokens to either
  a nested child dict or a plain value (the terminal value stored under the
  sentinel key "", or an attribute value stored by Trie.assign).  We model a
  node's dict as an insertion-ordered association list with unique keys
  (Python dict semantics: updates replace in place, new keys append at the
  end), and a dict value as the inductive Entry below.

  Python exceptions that can escape the modelled operations are represented
  by the PyErr type and Except results:
    - NotImplementedError is raised by Trie._get_iterator when self.type is
      neither TYPES.STANDARD nor TYPES.EXTENDED (the spec's taxonomy calls
      this UnsupportedModeError);
    - ValueError is raised by str.split when the delimiter is empty;
    - TypeError is raised whenever a traversal descends into a plain string
      value and then indexes it with a string token, or item-assigns into it
      (the source only catches KeyError, so these propagate).

  The source predates Python 3 (per-character iteration of strings combined
  with the getattr(i, "__iter__", False) test in Trie._smash only terminates
  under Python 2, where str has no __iter__ attribute; the module's own
  doctests rely on that behaviour).  We therefore embed the Python 2
  semantics the doctests pin down: in _smash, a string is an atom (yielded
  whole) while generators and dicts are iterable (a dict iterates over its
  keys, in insertion order).
-/

/-- Python exceptions that can escape the modelled trie operations. -/
inductive PyErr where
  | NotImplementedError
  | TypeError
  | ValueError
deriving DecidableEq

/-- The trie's tokenization mode: TYPES.STANDARD (per character) or
TYPES.EXTENDED (split on the delimiter).  UNRECOGNIZED stands for any
other Python value passed as trie_type at construction; _get_iterator
compares against the two enum members and raises for everything else. -/
inductive TrieMode where
  | STANDARD
  | EXTENDED
  | UNRECOGNIZED
deriving DecidableEq

/-- A value stored in a node's dict: either a plain string (a terminal
value written by add, or an attribute value written by assign), or a
nested child node, itself a dict from token to value. -/
inductive Entry where
  | leaf (s : String)
  | child (d : List (String × Entry))

/-- Python dict lookup d[k] (as an Option), on an association list with
unique keys. -/
def pyGet {α : Type} : List (String × α) → String → Option α
  | [], _ => none
  | (k, v) :: rest, key => if k = key then some v else pyGet rest key

/-- Python dict update d[k] = v: replace the value in place if the key is
present, else append the new binding at the end (insertion order). -/
def pySet {α : Type} : List (String × α) → String → α → List (String × α)
  | [], key, v => [(key, v)]
  | (k, w) :: rest, key, v =>
      if k = key then (key, v) :: rest else (k, w) :: pySet rest key v

/-- The tokens produced by iterating a Python string character by
character, as the trie does in STANDARD mode: one single-character
string per character. -/
def stdTokens (w : String) : List String :=
  w.data.map (fun c => String.singleton c)

/-- The scanner behind Python str.split with a non-empty separator:
scan left to right; at the leftmost occurrence of the separator emit the
accumulated field and continue after it; otherwise accumulate the
character.  The separator is always non-empty here (str.split raises
ValueError first otherwise, see getIterator); the emptiness test in the
guard only serves the termination measure. -/
def pySplitChars (sep : List Char) : List Char → List Char → List (List Char)
  | acc, [] => [acc.reverse]
  | acc, c :: cs =>
      if h : sep ≠ [] ∧ sep.isPrefixOf (c :: cs) then
        acc.reverse :: pySplitChars sep [] ((c :: cs).drop sep.length)
      else pySplitChars sep (c :: acc) cs
termination_by _ s => s.length
decreasing_by
  · have hlen : sep.length ≥ 1 := by
      cases sep with
      | nil => exact absurd rfl h.1
      | cons a l => simp
    simp [List.length_drop]
    omega
  · simp

/-- Python str.split(sep) for a non-empty separator. -/
def pySplit (w : String) (sep : String) : List String :=
  (pySplitChars sep.data [] w.data).map String.mk

/-- The Trie object: its root dict, its tokenization mode (self.type), its
delimiter, and the memoize cache attached to __contains__ (keyed on the
word argument; the Python cache key is the pair (instance, word), so per
instance it is keyed by the word). -/
structure Trie where
  root : List (String × Entry)
  type : TrieMode
  delimiter : String
  cache : List (String × Bool)

/-- Trie._get_iterator: the token sequence for a word under the trie's
mode.  STANDARD iterates the word's characters; EXTENDED returns
word.split(delimiter) (str.split raises ValueError on an empty
delimiter); any other mode raises NotImplementedError. -/
def getIterator (t : Trie) (word : String) : Except PyErr (List String) :=
  match t.type with
  | .STANDARD => .ok (stdTokens word)
  | .EXTENDED =>
      if t.delimiter = "" then .error .ValueError
      else .ok (pySplit word t.delimiter)
  | .UNRECOGNIZED => .error .NotImplementedError

/-- The token walk of Trie.__contains__: follow each token from the
current value.  A missing key at a dict is caught (KeyError) and answers
false; indexing a plain string value with a further token raises
TypeError; at the end of the tokens, a dict answers whether it has the
sentinel key "", while a plain string s answers ('' in s), which is
always true. -/
def containsTokens : Entry → List String → Except PyErr Bool
  | .child d, [] => .ok (pyGet d "").isSome
  | .leaf _, [] => .ok true
  | .child d, t :: ts =>
      match pyGet d t with
      | some e => containsTokens e ts
      | none => .ok false
  | .leaf _, _ :: _ => .error .TypeError

/-- The body of Trie.__contains__ as recomputed on a cache miss. -/
def Trie.containsCompute (t : Trie) (word : String) : Except PyErr Bool :=
  match getIterator t word with
  | .error e => .error e
  | .ok toks => containsTokens (.child t.root) toks

/-- Trie.__contains__ through the memoize decorator: a cached result for
the same word is returned verbatim; otherwise the result is computed,
stored in the cache, and returned.  An exception during computation
propagates and caches nothing.  The returned Trie carries the possibly
extended cache (the only state the query touches). -/
def Trie.containsMem (t : Trie) (word : String) : Except PyErr (Bool × Trie) :=
  match pyGet t.cache word with
  | some b => .ok (b, t)
  | none =>
      match t.containsCompute word with
      | .ok b => .ok (b, { t with cache := pySet t.cache word b })
      | .error e => .error e

/-- The token walk of Trie.add: for each token descend into the child,
creating an empty child dict on KeyError; descending into a plain string
value raises TypeError at the next index or item assignment (the source
catches only KeyError), before any node has been created.  After the
tokens, the terminal sentinel "" is set to the original word. -/
def addTokens : List (String × Entry) → List String → String →
    Except PyErr (List (String × Entry))
  | d, [], w => .ok (pySet d "" (.leaf w))
  | d, t :: ts, w =>
      match pyGet d t with
      | some (.child c) =>
          match addTokens c ts w with
          | .ok c' => .ok (pySet d t (.child c'))
          | .error e => .error e
      | some (.leaf _) => .error .TypeError
      | none =>
          match addTokens [] ts w with
          | .ok c' => .ok (pySet d t (.child c'))
          | .error e => .error e

/-- Trie.add: tokenize the word and run the insertion walk.  On an
exception the trie is unchanged (the TypeError of a leaf descent occurs
before any node creation). -/
def Trie.add (t : Trie) (word : String) : Except PyErr Trie :=
  match getIterator t word with
  | .error e => .error e
  | .ok toks =>
      match addTokens t.root toks word with
      | .ok root' => .ok { t with root := root' }
      | .error e => .error e

/-- Trie.update: add each word in order.  A failure partway leaves the
prior insertions intact, so the result is the state reached together
with the exception, if any. -/
def Trie.update (t : Trie) : List String → Trie × Option PyErr
  | [] => (t, none)
  | w :: ws =>
      match t.add w with
      | .ok t' => t'.update ws
      | .error e => (t, some e)

/-- The token walk of Trie.assign: follow each token; a missing key at a
dict (KeyError) silently returns with the trie unchanged; descending
into a plain string value raises TypeError at the next string index or
item assignment.  After the tokens, the attribute is stored in the final
node's dict. -/
def assignTokens : List (String × Entry) → List String → String → String →
    Except PyErr (List (String × Entry))
  | d, [], key, v => .ok (pySet d key (.leaf v))
  | d, t :: ts, key, v =>
      match pyGet d t with
      | some (.child c) =>
          match assignTokens c ts key v with
          | .ok c' => .ok (pySet d t (.child c'))
          | .error e => .error e
      | some (.leaf _) => .error .TypeError
      | none => .ok d

/-- Trie.assign: tokenize the word and run the assignment walk. -/
def Trie.assign (t : Trie) (word key value : String) : Except PyErr Trie :=
  match getIterator t word with
  | .error e => .error e
  | .ok toks =>
      match assignTokens t.root toks key value with
      | .ok root' => .ok { t with root := root' }
      | .error e => .error e

/-- How Trie._smash flattens the value yielded for a terminal sentinel by
Trie._traverse (the raw dict value under ""): a plain string is an atom
and is yielded whole (Python 2: str has no __iter__); a dict is iterable
and _smash yields its keys, each a string atom, in insertion order. -/
def smashValue : Entry → List String
  | .leaf s => [s]
  | .child d => d.map Prod.fst

mutual
/-- Trie._smash applied to Trie._traverse of a single dict value reached
by a non-sentinel key: a child dict is traversed recursively; a plain
string value makes _traverse iterate its characters and index the string
with each one, raising TypeError on the first character (an empty string
yields nothing). -/
def traverseSmashE : Entry → Except PyErr (List String)
  | .leaf s => if s = "" then .ok [] else .error .TypeError
  | .child d => traverseSmashD d

/-- Trie._smash applied to Trie._traverse of a node dict: iterate the
dict's keys in insertion order; the sentinel key "" yields its raw value
(flattened by _smash as smashValue); any other key yields the recursive
traversal of its value, flattened in place. -/
def traverseSmashD : List (String × Entry) → Except PyErr (List String)
  | [] => .ok []
  | (k, e) :: rest =>
      if k = "" then
        match traverseSmashD rest with
        | .ok tail => .ok (smashValue e ++ tail)
        | .error err => .error err
      else
        match traverseSmashE e with
        | .ok sub =>
            match traverseSmashD rest with
            | .ok tail => .ok (sub ++ tail)
            | .error err => .error err
        | .error err => .error err
end

/-- The prefix walk of Trie.autocomplete: iterate the raw prefix
character by character (no tokenization -- the source loops directly
over the prefix argument), descending via d[char]; a KeyError answers
the empty list; indexing a plain string value raises TypeError.  At the
end, flatten the traversal of the reached value. -/
def autocompleteFrom : Entry → List Char → Except PyErr (List String)
  | e, [] => traverseSmashE e
  | .child d, c :: cs =>
      match pyGet d (String.singleton c) with
      | some e => autocompleteFrom e cs
      | none => .ok []
  | .leaf _, _ :: _ => .error .TypeError

/-- Trie.autocomplete on a string prefix: walk the prefix's characters
from the root, then collect the terminal values of the subtree.  Note
the mode and delimiter are never consulted. -/
def Trie.autocomplete (t : Trie) (pre : String) : Except PyErr (List String) :=
  autocompleteFrom (.child t.root) pre.data

/-- Trie.unload at the raw-node-graph contract level: json.dumps writes
the root's nested dict structure as one line; the externalized value is
the root node graph itself (the json collaborator is external to this
repository and round-trips string-keyed, string-leaved dicts exactly). -/
def Trie.unload (t : Trie) : List (String × Entry) := t.root

/-- Trie.load at the raw-node-graph contract level: json.loads the one
line back into the nested dict shape and replace the trie's root
wholesale.  Nothing else (mode, delimiter, cache) is touched. -/
def Trie.load (t : Trie) (data : List (String × Entry)) : Trie :=
  { t with root := data }

/-- Trie.__init__: a fresh trie with an empty root, the given mode and
delimiter, and an empty membership cache. -/
def freshTrie (ty : TrieMode) (dl : String) : Trie :=
  ⟨[], ty, dl, []⟩

/-! Basic lemmas about the Python dict model. -/

theorem pyGet_pySet_self {α : Type} (d : List (String × α)) (k : String) (v : α) :
    pyGet (pySet d k v) k = some v := by
  induction d with
  | nil => simp [pySet, pyGet]
  | cons hd rest ih =>
      obtain ⟨k', v'⟩ := hd
      by_cases hk : k' = k <;> simp [pySet, pyGet, hk, ih]

theorem pyGet_pySet_ne {α : Type} (d : List (String × α)) (k k' : String) (v : α)
    (h : k ≠ k') : pyGet (pySet d k v) k' = pyGet d k' := by
  induction d with
  | nil => simp [pySet, pyGet, h]
  | cons hd rest ih =>
      obtain ⟨k'', v''⟩ := hd
      by_cases hk : k'' = k
      · subst hk
        simp [pySet, pyGet, h]
      · simp [pySet, pyGet, hk, ih]

theorem pySet_eq_of_get {α : Type} (d : List (String × α)) (k : String) (v : α)
    (h : pyGet d k = some v) : pySet d k v = d := by
  induction d with
  | nil => simp [pyGet] at h
  | cons hd rest ih =>
      obtain ⟨k', v'⟩ := hd
      by_cases hk : k' = k
      · subst hk
        simp [pyGet] at h
        simp [pySet, h]
      · simp [pyGet, hk] at h
        simp [pySet, hk, ih h]

/-- Mutual induction over the nested Entry / node-dict structure. -/
theorem Entry.mutual_ind (P : Entry → Prop) (Q : List (String × Entry) → Prop)
    (h1 : ∀ s, P (.leaf s))
    (h2 : ∀ d, Q d → P (.child d))
    (h3 : Q [])
    (h4 : ∀ k e rest, P e → Q rest → Q ((k, e) :: rest)) :
    (∀ e, P e) ∧ (∀ d, Q d) := by
  have hE : ∀ e, P e := fun e =>
    @Entry.rec P Q (fun p => P p.2) h1 h2 h3
      (fun hd tl hh ht => h4 hd.1 hd.2 tl hh ht) (fun _ _ h => h) e
  refine ⟨hE, fun d => ?_⟩
  induction d with
  | nil => exact h3
  | cons hd tl ih => exact h4 hd.1 hd.2 tl (hE hd.2) ih

/-! Lemmas about insertion. -/

/-- A successful insertion walk, rerun on its own result, reproduces the
same dict: the whole path already exists and the terminal is rewritten
to the same value. -/
theorem addTokens_idem (ts : List String) : ∀ d d' w, addTokens d ts w = .ok d' →
    addTokens d' ts w = .ok d' := by
  induction ts with
  | nil =>
      intro d d' w h
      simp only [addTokens, Except.ok.injEq] at h
      subst h
      simp only [addTokens, Except.ok.injEq]
      exact pySet_eq_of_get _ _ _ (pyGet_pySet_self ..)
  | cons t ts ih =>
      intro d d' w h
      cases hg : pyGet d t with
      | none =>
          cases hrec : addTokens [] ts w with
          | error e =>
              simp only [addTokens, hg, hrec] at h
              exact Except.noConfusion h
          | ok c' =>
              simp only [addTokens, hg, hrec, Except.ok.injEq] at h
              subst h
              simp only [addTokens, pyGet_pySet_self, ih [] c' w hrec,
                Except.ok.injEq]
              exact pySet_eq_of_get _ _ _ (pyGet_pySet_self ..)
      | some e =>
          cases e with
          | leaf s =>
              simp only [addTokens, hg] at h
              exact Except.noConfusion h
          | child c =>
              cases hrec : addTokens c ts w with
              | error e =>
              simp only [addTokens, hg, hrec] at h
              exact Except.noConfusion h
              | ok c' =>
                  simp only [addTokens, hg, hrec, Except.ok.injEq] at h
                  subst h
                  simp only [addTokens, pyGet_pySet_self, ih c c' w hrec,
                    Except.ok.injEq]
                  exact pySet_eq_of_get _ _ _ (pyGet_pySet_self ..)

/-- After a successful insertion walk, the membership walk over the same
tokens finds the terminal and answers true. -/
theorem addTokens_containsTokens (ts : List String) : ∀ d d' w,
    addTokens d ts w = .ok d' → containsTokens (.child d') ts = .ok true := by
  induction ts with
  | nil =>
      intro d d' w h
      simp only [addTokens, Except.ok.injEq] at h
      subst h
      simp [containsTokens, pyGet_pySet_self]
  | cons t ts ih =>
      intro d d' w h
      cases hg : pyGet d t with
      | none =>
          cases hrec : addTokens [] ts w with
          | error e =>
              simp only [addTokens, hg, hrec] at h
              exact Except.noConfusion h
          | ok c' =>
              simp only [addTokens, hg, hrec, Except.ok.injEq] at h
              subst h
              simp [containsTokens, pyGet_pySet_self, ih [] c' w hrec]
      | some e =>
          cases e with
          | leaf s =>
              simp only [addTokens, hg] at h
              exact Except.noConfusion h
          | child c =>
              cases hrec : addTokens c ts w with
              | error e =>
              simp only [addTokens, hg, hrec] at h
              exact Except.noConfusion h
              | ok c' =>
                  simp only [addTokens, hg, hrec, Except.ok.injEq] at h
                  subst h
                  simp [containsTokens, pyGet_pySet_self, ih c c' w hrec]

/-- A successful Trie.add changes only the root. -/
theorem Trie.add_shape (t t' : Trie) (w : String) (h : t.add w = .ok t') :
    t'.type = t.type ∧ t'.delimiter = t.delimiter ∧ t'.cache = t.cache := by
  cases hit : getIterator t w with
  | error e =>
      simp only [Trie.add, hit] at h
      exact Except.noConfusion h
  | ok toks =>
      cases ha : addTokens t.root toks w with
      | error e =>
          simp only [Trie.add, hit, ha] at h
          exact Except.noConfusion h
      | ok root' =>
          simp only [Trie.add, hit, ha, Except.ok.injEq] at h
          subst h
          exact ⟨rfl, rfl, rfl⟩

/-- C7: insertion is idempotent.  If add(k) succeeds and produces state
t', running add(k) again on t' succeeds and leaves the state exactly
equal (the whole path exists, so only the terminal value is rewritten,
to the same value); hence all subsequent contains and autocomplete
results coincide with those after a single add. -/
theorem c7_add_idempotent (t t' : Trie) (k : String) (h : t.add k = .ok t') :
    t'.add k = .ok t' := by
  cases hit : getIterator t k with
  | error e =>
      simp only [Trie.add, hit] at h
      exact Except.noConfusion h
  | ok toks =>
      cases ha : addTokens t.root toks k with
      | error e =>
          simp only [Trie.add, hit, ha] at h
          exact Except.noConfusion h
      | ok root' =>
          simp only [Trie.add, hit, ha, Except.ok.injEq] at h
          subst h
          have hit' : getIterator { t with root := root' } k = .ok toks := hit
          simp only [Trie.add, hit', addTokens_idem toks t.root root' k ha]

/-- The empty STANDARD trie, as constructed by Trie(). -/
def exFresh : Trie := freshTrie .STANDARD ":"

/-- The state of exFresh after add("ab"). -/
def exAB : Trie :=
  ⟨[("a", .child [("b", .child [("", .leaf "ab")])])], .STANDARD, ":", []⟩

theorem c7_witness : exAB.add "ab" = .ok exAB :=
  c7_add_idempotent exFresh exAB "ab" (by rfl)

/-- C4: a key just added is contained.  If add(k) succeeds producing t'
and the membership cache has no entry for k, the following contains(k)
computes and answers true. -/
theorem c4_add_then_contains (t t' : Trie) (k : String)
    (hadd : t.add k = .ok t') (hc : pyGet t'.cache k = none) :
    ∃ t'', t'.containsMem k = .ok (true, t'') := by
  cases hit : getIterator t k with
  | error e =>
      simp only [Trie.add, hit] at hadd
      exact Except.noConfusion hadd
  | ok toks =>
      cases ha : addTokens t.root toks k with
      | error e =>
          simp only [Trie.add, hit, ha] at hadd
          exact Except.noConfusion hadd
      | ok root' =>
          simp only [Trie.add, hit, ha, Except.ok.injEq] at hadd
          subst hadd
          refine ⟨⟨root', t.type, t.delimiter, pySet t.cache k true⟩, ?_⟩
          have hc' : pyGet t.cache k = none := hc
          have hit' : getIterator { t with root := root' } k = .ok toks := hit
          simp only [Trie.containsMem, Trie.containsCompute, hc', hit',
            addTokens_containsTokens toks t.root root' k ha]

theorem c4_witness : ∃ t'', exAB.containsMem "ab" = .ok (true, t'') :=
  c4_add_then_contains exFresh exAB "ab" (by rfl) (by rfl)

/-- C9: the queries mutate nothing but the membership cache.  A
successful contains(k) leaves the node graph, the mode and the delimiter
untouched, and therefore every autocomplete result unchanged;
autocomplete itself returns no state at all (it is a pure function of
the root, see Trie.autocomplete). -/
theorem c9_contains_touches_only_cache (t : Trie) (k p : String) (b : Bool)
    (t' : Trie) (h : t.containsMem k = .ok (b, t')) :
    t'.root = t.root ∧ t'.type = t.type ∧ t'.delimiter = t.delimiter ∧
      t'.autocomplete p = t.autocomplete p := by
  cases hc : pyGet t.cache k with
  | some b' =>
      simp only [Trie.containsMem, hc, Except.ok.injEq, Prod.mk.injEq] at h
      obtain ⟨_, ht⟩ := h
      subst ht
      exact ⟨rfl, rfl, rfl, rfl⟩
  | none =>
      cases hcc : t.containsCompute k with
      | ok b'' =>
          simp only [Trie.containsMem, hc, hcc, Except.ok.injEq, Prod.mk.injEq] at h
          obtain ⟨_, ht⟩ := h
          subst ht
          exact ⟨rfl, rfl, rfl, rfl⟩
      | error e =>
          simp only [Trie.containsMem, hc, hcc] at h
          exact Except.noConfusion h

/-- exAB after the query contains("x") cached its false answer. -/
def exABx : Trie :=
  ⟨[("a", .child [("b", .child [("", .leaf "ab")])])], .STANDARD, ":",
    [("x", false)]⟩

theorem c9_witness :
    exABx.root = exAB.root ∧ exABx.type = exAB.type ∧
      exABx.delimiter = exAB.delimiter ∧
      exABx.autocomplete "a" = exAB.autocomplete "a" :=
  c9_contains_touches_only_cache exAB "x" "a" false exABx (by rfl)

/-- The first component of Trie.update (the state reached, whether or
not an exception stopped the loop) never touches the membership cache. -/
theorem Trie.update_fst_cache (ws : List String) : ∀ t : Trie,
    (t.update ws).1.cache = t.cache := by
  induction ws with
  | nil => intro t; rfl
  | cons w ws ih =>
      intro t
      cases h : t.add w with
      | ok t' =>
          have hsh := (Trie.add_shape t t' w h).2.2
          simp only [Trie.update, h]
          rw [ih t', hsh]
      | error e => simp only [Trie.update, h]

/-- C2: a cached false membership answer survives insertions.  If
contains(k) answered false (leaving state t1, whose cache now maps k to
false), then after any sequence of add operations the next contains(k)
still returns the cached false: no insertion ever invalidates a cache
entry. -/
theorem c2_cached_false_survives_adds (t t1 : Trie) (k : String)
    (ws : List String) (h : t.containsMem k = .ok (false, t1)) :
    (t1.update ws).1.containsMem k = .ok (false, (t1.update ws).1) := by
  have hcache : pyGet t1.cache k = some false := by
    cases hc : pyGet t.cache k with
    | some b' =>
        simp only [Trie.containsMem, hc, Except.ok.injEq, Prod.mk.injEq] at h
        obtain ⟨hb, ht⟩ := h
        subst ht
        rw [hc, hb]
    | none =>
        cases hcc : t.containsCompute k with
        | ok b'' =>
            simp only [Trie.containsMem, hc, hcc, Except.ok.injEq,
              Prod.mk.injEq] at h
            obtain ⟨hb, ht⟩ := h
            subst ht
            subst hb
            exact pyGet_pySet_self ..
        | error e =>
            simp only [Trie.containsMem, hc, hcc] at h
            exact Except.noConfusion h
  have h2 : pyGet (t1.update ws).1.cache k = some false := by
    rw [Trie.update_fst_cache]
    exact hcache
  simp only [Trie.containsMem, h2]

/-- A STANDARD trie holding only "apple", queried for nothing yet. -/
def exApple : Trie :=
  ⟨[("a", .child [("p", .child [("p", .child [("l", .child [("e",
      .child [("", .leaf "apple")])])])])])], .STANDARD, ":", []⟩

/-- exApple after contains("appl") cached its false answer. -/
def exAppleC : Trie :=
  ⟨[("a", .child [("p", .child [("p", .child [("l", .child [("e",
      .child [("", .leaf "apple")])])])])])], .STANDARD, ":",
    [("appl", false)]⟩

theorem c2_witness :
    (exAppleC.update ["appl"]).1.containsMem "appl"
      = .ok (false, (exAppleC.update ["appl"]).1) :=
  c2_cached_false_survives_adds exApple exAppleC "appl" ["appl"] (by rfl)

/-- C8: a trie constructed with a mode value that is neither
TYPES.STANDARD nor TYPES.EXTENDED fails every operation that tokenizes a
key -- add, contains and assign all surface NotImplementedError (the
error the spec's taxonomy calls UnsupportedModeError) from
Trie._get_iterator. -/
theorem c8_unrecognized_mode_errors (root : List (String × Entry))
    (dl word attr v : String) :
    (Trie.mk root .UNRECOGNIZED dl []).add word = .error .NotImplementedError ∧
    (Trie.mk root .UNRECOGNIZED dl []).containsMem word
      = .error .NotImplementedError ∧
    (Trie.mk root .UNRECOGNIZED dl []).assign word attr v
      = .error .NotImplementedError :=
  ⟨rfl, rfl, rfl⟩

/-! The only exception the autocomplete traversal can raise is TypeError. -/

theorem traverseSmash_no_nie :
    (∀ e, traverseSmashE e ≠ .error .NotImplementedError) ∧
    (∀ d, traverseSmashD d ≠ .error .NotImplementedError) := by
  refine Entry.mutual_ind _ _ ?_ ?_ ?_ ?_
  · intro s h
    simp only [traverseSmashE] at h
    split at h
    · exact Except.noConfusion h
    · simp at h
  · intro d hd h
    simp only [traverseSmashE] at h
    exact hd h
  · intro h
    simp only [traverseSmashD] at h
    exact Except.noConfusion h
  · intro k e rest he hrest h
    simp only [traverseSmashD] at h
    split at h
    · cases hrec : traverseSmashD rest with
      | ok tail => rw [hrec] at h; simp at h
      | error err => rw [hrec] at h; simp at h; exact hrest (h ▸ hrec)
    · cases hrecE : traverseSmashE e with
      | ok sub =>
          rw [hrecE] at h
          cases hrec : traverseSmashD rest with
          | ok tail => rw [hrec] at h; simp at h
          | error err => rw [hrec] at h; simp at h; exact hrest (h ▸ hrec)
      | error err => rw [hrecE] at h; simp at h; exact he (h ▸ hrecE)

theorem autocompleteFrom_no_nie : ∀ (cs : List Char) (e : Entry),
    autocompleteFrom e cs ≠ .error .NotImplementedError := by
  intro cs
  induction cs with
  | nil =>
      intro e
      simp only [autocompleteFrom]
      exact traverseSmash_no_nie.1 e
  | cons c cs ih =>
      intro e h
      cases e with
      | leaf s =>
          simp only [autocompleteFrom] at h
          exact absurd h (by simp)
      | child d =>
          simp only [autocompleteFrom] at h
          cases hg : pyGet d (String.singleton c) with
          | some e' => rw [hg] at h; exact ih e' h
          | none => rw [hg] at h; exact Except.noConfusion h

/-- C10: autocomplete never tokenizes its prefix.  Its result depends
only on the root (never on mode or delimiter -- it walks the raw
prefix one character at a time), and in particular it never raises the
unsupported-mode error NotImplementedError, even on a trie whose mode is
unrecognized. -/
theorem c10_autocomplete_never_tokenizes :
    (∀ (root : List (String × Entry)) (ty ty' : TrieMode) (dl dl' : String)
        (c c' : List (String × Bool)) (p : String),
        (Trie.mk root ty dl c).autocomplete p
          = (Trie.mk root ty' dl' c').autocomplete p) ∧
    ∀ (t : Trie) (p : String),
      t.autocomplete p ≠ .error .NotImplementedError := by
  constructor
  · intro root ty ty' dl dl' c c' p
    rfl
  · intro t p
    exact autocompleteFrom_no_nie p.data (.child t.root)

theorem c10_witness :
    (Trie.mk [("a", .child [("", .leaf "a")])] .UNRECOGNIZED "" []).autocomplete "a"
      = (Trie.mk [("a", .child [("", .leaf "a")])] .STANDARD ":" []).autocomplete "a" ∧
    (Trie.mk [("a", .child [("", .leaf "a")])] .UNRECOGNIZED "" []).autocomplete "a"
      ≠ .error .NotImplementedError :=
  ⟨c10_autocomplete_never_tokenizes.1 [("a", .child [("", .leaf "a")])]
      .UNRECOGNIZED .STANDARD "" ":" [] [] "a",
    c10_autocomplete_never_tokenizes.2
      (Trie.mk [("a", .child [("", .leaf "a")])] .UNRECOGNIZED "" []) "a"⟩

/-! C3: the segmented-mode scenario. -/

/-- The empty EXTENDED trie with delimiter ":". -/
def exExt : Trie := freshTrie .EXTENDED ":"

/-- The state of exExt after add("a:b:c"). -/
def exExtABC : Trie :=
  ⟨[("a", .child [("b", .child [("c", .child [("", .leaf "a:b:c")])])])],
    .EXTENDED, ":", []⟩

theorem pySplit_abc : pySplit "a:b:c" ":" = ["a", "b", "c"] := by
  simp [pySplit, pySplitChars]

theorem pySplit_ab : pySplit "a:b" ":" = ["a", "b"] := by
  simp [pySplit, pySplitChars]

/-- C3 counterexample: in segmented mode with delimiter ":", after
inserting "a:b:c" into a fresh trie, autocomplete("a:b") does NOT yield
"a:b:c": the prefix is walked one character at a time without
tokenization, the character ':' is not a child token, and the result is
the empty sequence. -/
theorem c3_counterexample :
    exExt.add "a:b:c" = .ok exExtABC ∧
    exExtABC.autocomplete "a:b" = .ok [] ∧
    exExtABC.autocomplete "a:b" ≠ .ok ["a:b:c"] := by
  refine ⟨?_, ?_, ?_⟩
  · simp only [Trie.add, getIterator, exExt, freshTrie, pySplit_abc]
    rfl
  · rfl
  · intro h
    rw [show exExtABC.autocomplete "a:b" = .ok [] from rfl] at h
    simp at h

/-- C3 (amended): in segmented mode with delimiter ":", after inserting
"a:b:c" into a fresh trie, contains("a:b:c") returns true,
contains("a:b") returns false (prefix only, not a complete key), and
autocomplete("a:b") yields the empty sequence, because autocomplete
walks its raw prefix character by character instead of tokenizing it. -/
theorem c3_amended :
    exExt.add "a:b:c" = .ok exExtABC ∧
    (∃ t', exExtABC.containsMem "a:b:c" = .ok (true, t')) ∧
    (∃ t', exExtABC.containsMem "a:b" = .ok (false, t')) ∧
    exExtABC.autocomplete "a:b" = .ok [] := by
  refine ⟨?_, ⟨?_, ?_⟩, ⟨?_, ?_⟩, rfl⟩
  · simp only [Trie.add, getIterator, exExt, freshTrie, pySplit_abc]
    rfl
  · exact ⟨exExtABC.root, .EXTENDED, ":", [("a:b:c", true)]⟩
  · simp only [Trie.containsMem, Trie.containsCompute, getIterator, exExtABC,
      pySplit_abc]
    rfl
  · exact ⟨exExtABC.root, .EXTENDED, ":", [("a:b", false)]⟩
  · simp only [Trie.containsMem, Trie.containsCompute, getIterator, exExtABC,
      pySplit_ab]
    rfl

/-! C6: attribute assignment on a missing path. -/

/-- The walk of Trie.assign (and lookup) runs into a KeyError: following
the tokens from node to node, some token is absent from the dict
reached, before any descent into a plain string value. -/
def missingAtNode : List (String × Entry) → List String → Bool
  | _, [] => false
  | d, t :: ts =>
      match pyGet d t with
      | none => true
      | some (.child c) => missingAtNode c ts
      | some (.leaf _) => false

/-- Modelled from the spec's words for the C6 hypothesis ("if the path
does not fully exist (any token missing)"): the key's full path exists
when every token leads from node to node through child entries. -/
def fullPathExists : List (String × Entry) → List String → Bool
  | _, [] => true
  | d, t :: ts =>
      match pyGet d t with
      | some (.child c) => fullPathExists c ts
      | _ => false

/-- The state of exFresh after add("a"). -/
def exA : Trie := ⟨[("a", .child [("", .leaf "a")])], .STANDARD, ":", []⟩

/-- exA after assign("a", "x", "v") stored the attribute on the node. -/
def exAattr : Trie :=
  ⟨[("a", .child [("", .leaf "a"), ("x", .leaf "v")])], .STANDARD, ":", []⟩

/-- C6 counterexample: the claim fails as a universal statement.  In the
state reached by add("a") then assign("a", "x", "v"), the path of key
"axb" does not fully exist (its token "b" is missing), yet
assign("axb", "k", "w") is not a silent no-op: the walk descends into
the plain attribute value "v" and the next index raises TypeError. -/
theorem c6_counterexample :
    exFresh.add "a" = .ok exA ∧
    exA.assign "a" "x" "v" = .ok exAattr ∧
    fullPathExists exAattr.root (stdTokens "axb") = false ∧
    exAattr.assign "axb" "k" "w" = .error .TypeError :=
  ⟨rfl, rfl, rfl, rfl⟩

theorem assignTokens_missing_noop (ts : List String) : ∀ d k v,
    missingAtNode d ts = true → assignTokens d ts k v = .ok d := by
  induction ts with
  | nil =>
      intro d k v h
      simp [missingAtNode] at h
  | cons t ts ih =>
      intro d k v h
      cases hg : pyGet d t with
      | none => simp [assignTokens, hg]
      | some e =>
          cases e with
          | leaf s => simp [missingAtNode, hg] at h
          | child c =>
              have hm : missingAtNode c ts = true := by
                simpa [missingAtNode, hg] using h
              simp only [assignTokens, hg, ih c k v hm, Except.ok.injEq]
              exact pySet_eq_of_get _ _ _ hg

/-- C6 (amended): if the assignment walk runs into a KeyError -- some
token of the key is absent from the node dict reached -- then
assign(key, attribute, value) is a silent no-op: no error, no node
created, the whole trie state unchanged.  (When instead the walk
descends into a plain leaf value with tokens remaining, a TypeError
propagates, see c6_counterexample; assignment still never creates
nodes.) -/
theorem c6_assign_missing_keyerror_noop (t : Trie) (word key v : String)
    (ts : List String) (hit : getIterator t word = .ok ts)
    (hm : missingAtNode t.root ts = true) :
    t.assign word key v = .ok t := by
  simp only [Trie.assign, hit, assignTokens_missing_noop ts t.root key v hm]

theorem c6_witness : exAB.assign "zz" "k" "v" = .ok exAB :=
  c6_assign_missing_keyerror_noop exAB "zz" "k" "v" ["z", "z"]
    (by rfl) (by rfl)

/-! C5: persistence round-trip. -/

/-- exFresh after the query contains("a") cached its false answer. -/
def exEmptyCached : Trie := ⟨[], .STANDARD, ":", [("a", false)]⟩

/-- exEmptyCached after add("a"): the graph holds "a" but the stale
cached false for "a" remains. -/
def exACached : Trie :=
  ⟨[("a", .child [("", .leaf "a")])], .STANDARD, ":", [("a", false)]⟩

/-- C5 counterexample: the round-trip claim fails as stated, because of
the stale membership cache.  Query contains("a") on a fresh trie
(false, cached), then add("a"): now "a" is a previously added key, the
original trie still answers contains("a") = false from its cache, but
the freshly constructed trie loaded with the exported graph computes
contains("a") = true -- the results are not identical. -/
theorem c5_counterexample :
    exFresh.containsMem "a" = .ok (false, exEmptyCached) ∧
    exEmptyCached.add "a" = .ok exACached ∧
    exACached.containsMem "a" = .ok (false, exACached) ∧
    ((freshTrie exACached.type exACached.delimiter).load
        exACached.unload).containsMem "a"
      = .ok (true, ⟨[("a", .child [("", .leaf "a")])], .STANDARD, ":",
          [("a", true)]⟩) :=
  ⟨rfl, rfl, rfl, rfl⟩

/-- C5 (amended): exporting a trie and importing into a freshly
constructed trie of the same mode reproduces the root graph exactly,
hence identical autocomplete results for every prefix, and identical
contains results for every key that has no (possibly stale) entry in
the original trie's membership cache.  (For a key with a stale cached
answer the original trie returns the cache while the fresh trie
recomputes, see c5_counterexample.) -/
theorem c5_roundtrip_same_results (t : Trie) (p k : String)
    (hk : pyGet t.cache k = none) :
    ((freshTrie t.type t.delimiter).load t.unload).root = t.root ∧
    ((freshTrie t.type t.delimiter).load t.unload).autocomplete p
      = t.autocomplete p ∧
    Except.map Prod.fst
        (((freshTrie t.type t.delimiter).load t.unload).containsMem k)
      = Except.map Prod.fst (t.containsMem k) := by
  refine ⟨rfl, rfl, ?_⟩
  have hcc : ((freshTrie t.type t.delimiter).load t.unload).containsCompute k
      = t.containsCompute k := rfl
  have h2 : pyGet ((freshTrie t.type t.delimiter).load t.unload).cache k
      = none := rfl
  cases h3 : t.containsCompute k with
  | ok b => simp only [Trie.containsMem, hk, h2, hcc, h3, Except.map]
  | error e => simp only [Trie.containsMem, hk, h2, hcc, h3, Except.map]

theorem c5_witness :
    ((freshTrie exApple.type exApple.delimiter).load exApple.unload).root
      = exApple.root ∧
    ((freshTrie exApple.type exApple.delimiter).load
        exApple.unload).autocomplete "ap" = exApple.autocomplete "ap" ∧
    Except.map Prod.fst
        (((freshTrie exApple.type exApple.delimiter).load
          exApple.unload).containsMem "apple")
      = Except.map Prod.fst (exApple.containsMem "apple") :=
  c5_roundtrip_same_results exApple "ap" "apple" (by rfl)

/-! C1: exact autocomplete results for STANDARD-mode tries built by
insertion.  The development characterizes the terminal values stored in
a well-formed node graph and relates them to the traversal. -/

/-- Well-formedness of node graphs built by insertion alone, in a mode
whose tokens are never the empty string: every dict has unique keys, and
a key maps to a plain leaf value exactly when it is the terminal
sentinel "". -/
inductive Wf : Entry → Prop where
  | leaf : ∀ s, Wf (.leaf s)
  | child : ∀ d, (∀ k e, (k, e) ∈ d → Wf e) →
      (∀ k e, (k, e) ∈ d → (k = "" ↔ ∃ s, e = Entry.leaf s)) →
      (d.map Prod.fst).Nodup →
      Wf (.child d)

theorem Wf.child_mem {d : List (String × Entry)} {k : String} {e : Entry}
    (h : Wf (.child d)) (hm : (k, e) ∈ d) : Wf e := by
  cases h with
  | child _ hmem _ _ => exact hmem k e hm

theorem Wf.child_key {d : List (String × Entry)} {k : String} {e : Entry}
    (h : Wf (.child d)) (hm : (k, e) ∈ d) : (k = "" ↔ ∃ s, e = Entry.leaf s) := by
  cases h with
  | child _ _ hkeys _ => exact hkeys k e hm

theorem Wf.child_nodup {d : List (String × Entry)} (h : Wf (.child d)) :
    (d.map Prod.fst).Nodup := by
  cases h with
  | child _ _ _ hnd => exact hnd

theorem Wf.nil : Wf (.child []) :=
  Wf.child [] (by simp) (by simp) (by simp)

theorem Wf.cons_inv {k : String} {e : Entry} {rest : List (String × Entry)}
    (h : Wf (.child ((k, e) :: rest))) :
    Wf e ∧ Wf (.child rest) ∧ (k = "" ↔ ∃ s, e = Entry.leaf s) ∧
      k ∉ rest.map Prod.fst := by
  refine ⟨h.child_mem (List.mem_cons_self (k, e) rest), ?_,
    h.child_key (List.mem_cons_self (k, e) rest), ?_⟩
  · refine Wf.child rest ?_ ?_ ?_
    · intro k' e' hm
      exact h.child_mem (List.mem_cons_of_mem _ hm)
    · intro k' e' hm
      exact h.child_key (List.mem_cons_of_mem _ hm)
    · exact (List.nodup_cons.mp h.child_nodup).2
  · exact (List.nodup_cons.mp h.child_nodup).1

/-- The binding found by a dict lookup is a member of the dict. -/
theorem pyGet_mem {α : Type} {d : List (String × α)} {k : String} {v : α}
    (h : pyGet d k = some v) : (k, v) ∈ d := by
  induction d with
  | nil => simp [pyGet] at h
  | cons hd rest ih =>
      obtain ⟨k', v'⟩ := hd
      by_cases hk : k' = k
      · subst hk
        simp [pyGet] at h
        simp [h]
      · simp only [pyGet, if_neg hk] at h
        exact List.mem_cons_of_mem _ (ih h)

theorem pyGet_eq_none_of_not_keys {α : Type} {d : List (String × α)}
    {k : String} (h : k ∉ d.map Prod.fst) : pyGet d k = none := by
  induction d with
  | nil => rfl
  | cons hd rest ih =>
      obtain ⟨k', v'⟩ := hd
      simp only [List.map_cons, List.mem_cons] at h
      push_neg at h
      have hne : ¬ k' = k := fun he => h.1 he.symm
      simp only [pyGet, if_neg hne]
      exact ih h.2

/-- Every member of an updated dict is the new binding or an old one. -/
theorem mem_pySet {α : Type} {d : List (String × α)} {k k' : String}
    {v v' : α} (h : (k', v') ∈ pySet d k v) :
    (k' = k ∧ v' = v) ∨ (k', v') ∈ d := by
  induction d with
  | nil =>
      simp [pySet] at h
      exact Or.inl ⟨h.1, h.2⟩
  | cons hd rest ih =>
      obtain ⟨k'', v''⟩ := hd
      by_cases hk : k'' = k
      · subst hk
        simp only [pySet, if_pos rfl, List.mem_cons] at h
        cases h with
        | head => exact Or.inl ⟨rfl, rfl⟩
        | tail _ h => exact Or.inr (List.mem_cons_of_mem _ h)
      · simp only [pySet, if_neg hk, List.mem_cons] at h
        rcases h with h | h
        · exact Or.inr (by simp [h])
        · rcases ih h with h' | h'
          · exact Or.inl h'
          · exact Or.inr (List.mem_cons_of_mem _ h')

/-- Updating a dict either keeps its key list (the key was present) or
appends the new key at the end (it was absent). -/
theorem pySet_map_fst {α : Type} (d : List (String × α)) (k : String) (v : α) :
    (pySet d k v).map Prod.fst = d.map Prod.fst ∨
      ((pySet d k v).map Prod.fst = d.map Prod.fst ++ [k] ∧
        k ∉ d.map Prod.fst) := by
  induction d with
  | nil => simp [pySet]
  | cons hd rest ih =>
      obtain ⟨k', v'⟩ := hd
      by_cases hk : k' = k
      · subst hk
        exact Or.inl (by simp [pySet])
      · simp only [pySet, if_neg hk, List.map_cons]
        rcases ih with h | ⟨h, hnk⟩
        · exact Or.inl (by simp [h])
        · refine Or.inr ⟨by simp [h], ?_⟩
          simp only [List.map_cons, List.mem_cons]
          push_neg
          exact ⟨fun he => hk he.symm, hnk⟩

/-- pySet preserves the Wf invariant provided the new binding respects
the sentinel discipline. -/
theorem Wf.pySet_child {d : List (String × Entry)} (hwf : Wf (.child d))
    (k : String) (v : Entry) (hkey : k = "" ↔ ∃ s, v = Entry.leaf s)
    (hv : Wf v) : Wf (.child (pySet d k v)) := by
  refine Wf.child _ ?_ ?_ ?_
  · intro k' e' hm
    rcases mem_pySet hm with ⟨hk, he⟩ | hm'
    · subst he
      exact hv
    · exact hwf.child_mem hm'
  · intro k' e' hm
    rcases mem_pySet hm with ⟨hk, he⟩ | hm'
    · subst hk
      subst he
      exact hkey
    · exact hwf.child_key hm'
  · rcases pySet_map_fst d k v with h | ⟨h, hnk⟩
    · rw [h]
      exact hwf.child_nodup
    · rw [h]
      simp only [List.nodup_append, List.nodup_cons]
      exact ⟨hwf.child_nodup, by simp, by simpa using hnk⟩

/-- In a well-formed dict, an insertion walk whose tokens are all
non-empty succeeds (it never descends into a leaf value, since leaves
sit only under the sentinel key) and preserves well-formedness. -/
theorem addTokens_ok_wf (w : String) (ts : List String)
    (hts : ∀ x ∈ ts, x ≠ "") : ∀ d, Wf (.child d) →
    ∃ d', addTokens d ts w = .ok d' ∧ Wf (.child d') := by
  induction ts with
  | nil =>
      intro d hwf
      refine ⟨pySet d "" (.leaf w), rfl, ?_⟩
      exact hwf.pySet_child "" (.leaf w) (by simp) (Wf.leaf w)
  | cons t ts ih =>
      intro d hwf
      have ht : t ≠ "" := hts t (by simp)
      have hts' : ∀ x ∈ ts, x ≠ "" := fun x hx => hts x (by simp [hx])
      cases hg : pyGet d t with
      | none =>
          obtain ⟨c', hc', hwfc'⟩ := ih hts' [] Wf.nil
          refine ⟨pySet d t (.child c'), ?_, ?_⟩
          · simp only [addTokens, hg, hc']
          · exact hwf.pySet_child t (.child c') (by simp [ht]) hwfc'
      | some e =>
          cases e with
          | leaf s =>
              exact absurd ((hwf.child_key (pyGet_mem hg)).mpr ⟨s, rfl⟩) ht
          | child c =>
              have hwfc : Wf (.child c) := hwf.child_mem (pyGet_mem hg)
              obtain ⟨c', hc', hwfc'⟩ := ih hts' c hwfc
              refine ⟨pySet d t (.child c'), ?_, ?_⟩
              · simp only [addTokens, hg, hc']
              · exact hwf.pySet_child t (.child c') (by simp [ht]) hwfc'

/-- The terminal value stored at the end of a token path: follow the
tokens through child entries, then read the leaf under the sentinel "". -/
def termAt : List (String × Entry) → List String → Option String
  | d, [] =>
      match pyGet d "" with
      | some (.leaf s) => some s
      | _ => none
  | d, t :: ts =>
      match pyGet d t with
      | some (.child c) => termAt c ts
      | _ => none

theorem termAt_nil_dict : ∀ qs, termAt [] qs = none := by
  intro qs
  cases qs <;> rfl

/-- Effect of a successful insertion on the stored terminal values: the
inserted path now holds the inserted word, every other path is
untouched. -/
theorem termAt_addTokens (ts : List String) : ∀ d d' w, Wf (.child d) →
    addTokens d ts w = .ok d' →
    ∀ qs, termAt d' qs = if qs = ts then some w else termAt d qs := by
  induction ts with
  | nil =>
      intro d d' w hwf h qs
      simp only [addTokens, Except.ok.injEq] at h
      subst h
      cases qs with
      | nil => simp [termAt, pyGet_pySet_self]
      | cons q qs' =>
          rw [if_neg (show q :: qs' ≠ ([] : List String) by simp)]
          by_cases hq : q = ""
          · subst hq
            have hd' : pyGet (pySet d "" (.leaf w)) "" = some (.leaf w) :=
              pyGet_pySet_self ..
            simp only [termAt, hd']
            cases hgd : pyGet d "" with
            | none => rfl
            | some e =>
                cases e with
                | leaf s => rfl
                | child c =>
                    exact absurd ((hwf.child_key (pyGet_mem hgd)).mp rfl)
                      (by simp)
          · have hne : ("" : String) ≠ q := fun he => hq he.symm
            simp only [termAt, pyGet_pySet_ne d "" q (.leaf w) hne]
  | cons t ts ih =>
      intro d d' w hwf h qs
      cases hg : pyGet d t with
      | none =>
          cases hrec : addTokens [] ts w with
          | error e =>
              simp only [addTokens, hg, hrec] at h
              exact Except.noConfusion h
          | ok c' =>
              simp only [addTokens, hg, hrec, Except.ok.injEq] at h
              subst h
              have hsub := ih [] c' w Wf.nil hrec
              cases qs with
              | nil =>
                  rw [if_neg (show ([] : List String) ≠ t :: ts by simp)]
                  by_cases hq : t = ""
                  · subst hq
                    have hd' : pyGet (pySet d "" (.child c')) ""
                        = some (.child c') := pyGet_pySet_self ..
                    simp only [termAt, hd', hg]
                  · have hne : t ≠ "" := hq
                    simp only [termAt, pyGet_pySet_ne d t "" (.child c') hne]
              | cons q qs' =>
                  by_cases hq : q = t
                  · subst hq
                    have hd' : pyGet (pySet d q (.child c')) q
                        = some (.child c') := pyGet_pySet_self ..
                    simp only [termAt, hd', hsub qs', termAt_nil_dict, hg]
                    by_cases hqs : qs' = ts
                    · simp [hqs]
                    · simp [hqs]
                  · have hne : t ≠ q := fun he => hq he.symm
                    simp only [termAt, pyGet_pySet_ne d t q (.child c') hne]
                    rw [if_neg (show q :: qs' ≠ t :: ts by simp [hq])]
      | some e =>
          cases e with
          | leaf s =>
              simp only [addTokens, hg] at h
              exact Except.noConfusion h
          | child c =>
              cases hrec : addTokens c ts w with
              | error e =>
                  simp only [addTokens, hg, hrec] at h
                  exact Except.noConfusion h
              | ok c' =>
                  simp only [addTokens, hg, hrec, Except.ok.injEq] at h
                  subst h
                  have hwfc : Wf (.child c) := hwf.child_mem (pyGet_mem hg)
                  have hsub := ih c c' w hwfc hrec
                  have ht : t ≠ "" := by
                    intro he
                    exact absurd ((hwf.child_key (pyGet_mem hg)).mp he)
                      (by simp)
                  cases qs with
                  | nil =>
                      rw [if_neg (show ([] : List String) ≠ t :: ts by simp)]
                      have hne : t ≠ "" := ht
                      simp only [termAt, pyGet_pySet_ne d t "" (.child c') hne]
                  | cons q qs' =>
                      by_cases hq : q = t
                      · subst hq
                        have hd' : pyGet (pySet d q (.child c')) q
                            = some (.child c') := pyGet_pySet_self ..
                        simp only [termAt, hd', hsub qs', hg]
                        by_cases hqs : qs' = ts
                        · simp [hqs]
                        · simp [hqs]
                      · have hne : t ≠ q := fun he => hq he.symm
                        simp only [termAt, pyGet_pySet_ne d t q (.child c') hne]
                        rw [if_neg (show q :: qs' ≠ t :: ts by simp [hq])]

theorem singleton_ne_empty (c : Char) : String.singleton c ≠ "" := by
  intro h
  have h2 : [c] = ([] : List Char) := congrArg String.data h
  exact List.noConfusion h2

theorem stdTokens_ne_empty (w : String) : ∀ x ∈ stdTokens w, x ≠ "" := by
  intro x hx
  simp only [stdTokens, List.mem_map] at hx
  obtain ⟨c, _, hc⟩ := hx
  exact hc ▸ singleton_ne_empty c

/-- Character tokenization is injective: distinct words have distinct
token sequences. -/
theorem stdTokens_inj {w w' : String} (h : stdTokens w = stdTokens w') :
    w = w' := by
  have hinj : Function.Injective String.singleton := by
    intro a b hab
    have h2 : [a] = [b] := congrArg String.data hab
    simpa using h2
  have hd : w.data = w'.data := List.map_injective_iff.mpr hinj h
  cases w
  cases w'
  exact congrArg String.mk hd

/-- Terminal values of a STANDARD trie after a sequence of insertions:
the update loop never raises, preserves well-formedness, and the
terminal at path qs is w exactly when w is one of the new words with
token sequence qs, or was already there and no new word overwrote that
path. -/
theorem update_std_char (ws : List String) : ∀ t : Trie, t.type = .STANDARD →
    Wf (.child t.root) →
    (t.update ws).2 = none ∧ Wf (.child (t.update ws).1.root) ∧
      ∀ qs w, termAt (t.update ws).1.root qs = some w ↔
        ((w ∈ ws ∧ stdTokens w = qs) ∨
          (termAt t.root qs = some w ∧ ∀ w' ∈ ws, stdTokens w' ≠ qs)) := by
  induction ws with
  | nil =>
      intro t ht hwf
      refine ⟨rfl, hwf, ?_⟩
      intro qs w
      simp [Trie.update]
  | cons v ws ih =>
      intro t ht hwf
      have hit : getIterator t v = .ok (stdTokens v) := by
        simp [getIterator, ht]
      obtain ⟨d', hadd, hwf'⟩ :=
        addTokens_ok_wf v (stdTokens v) (stdTokens_ne_empty v) t.root hwf
      have hupd : t.update (v :: ws) = ({ t with root := d' }).update ws := by
        simp only [Trie.update, Trie.add, hit, hadd]
      have hterm := termAt_addTokens (stdTokens v) t.root d' v hwf hadd
      have hroot : ({ t with root := d' } : Trie).root = d' := rfl
      have ihh := ih { t with root := d' } ht hwf'
      rw [hupd]
      refine ⟨ihh.1, ihh.2.1, ?_⟩
      intro qs w
      rw [ihh.2.2 qs w, hroot]
      constructor
      · rintro (⟨hmem, htok⟩ | ⟨hat, hnone⟩)
        · exact Or.inl ⟨List.mem_cons_of_mem _ hmem, htok⟩
        · rw [hterm qs] at hat
          by_cases hq : qs = stdTokens v
          · rw [if_pos hq] at hat
            have hw : v = w := Option.some.inj hat
            subst hw
            exact Or.inl ⟨by simp, hq.symm⟩
          · rw [if_neg hq] at hat
            refine Or.inr ⟨hat, ?_⟩
            intro w' hw'
            rcases List.mem_cons.mp hw' with h | h
            · subst h
              exact fun hcon => hq hcon.symm
            · exact hnone w' h
      · rintro (⟨hmem, htok⟩ | ⟨hat, hnone⟩)
        · rcases List.mem_cons.mp hmem with h | h
          · subst h
            by_cases hws : w ∈ ws
            · exact Or.inl ⟨hws, htok⟩
            · refine Or.inr ⟨?_, ?_⟩
              · rw [hterm qs, if_pos htok.symm]
              · intro w' hw' hcon
                have hww : w' = w := stdTokens_inj (by rw [htok, hcon])
                exact hws (hww ▸ hw')
          · exact Or.inl ⟨h, htok⟩
        · have hv : stdTokens v ≠ qs := hnone v (by simp)
          refine Or.inr ⟨?_,
            fun w' hw' => hnone w' (List.mem_cons_of_mem _ hw')⟩
          rw [hterm qs, if_neg (fun hc => hv hc.symm)]
          exact hat

theorem termAt_rest_nil_none {rest : List (String × Entry)}
    (hns : ("" : String) ∉ rest.map Prod.fst) : termAt rest [] = none := by
  simp [termAt, pyGet_eq_none_of_not_keys hns]

theorem termAt_absent_head {rest : List (String × Entry)} {k : String}
    (hknotin : k ∉ rest.map Prod.fst) (qs' : List String) :
    termAt rest (k :: qs') = none := by
  simp [termAt, pyGet_eq_none_of_not_keys hknotin]

theorem termAt_cons_sentinel {s : String} {rest : List (String × Entry)}
    (hns : ("" : String) ∉ rest.map Prod.fst) :
    ∀ qs, termAt (("", Entry.leaf s) :: rest) qs
      = if qs = [] then some s else termAt rest qs := by
  intro qs
  cases qs with
  | nil => simp [termAt, pyGet]
  | cons q qs' =>
      rw [if_neg (by simp)]
      by_cases hq : q = ""
      · subst hq
        have h1 : pyGet rest "" = none := pyGet_eq_none_of_not_keys hns
        simp [termAt, pyGet, h1]
      · have hne : ("" : String) ≠ q := fun he => hq he.symm
        simp [termAt, pyGet, hne]

theorem termAt_cons_child_nil {k : String} {c rest : List (String × Entry)}
    (hk : k ≠ "") :
    termAt ((k, Entry.child c) :: rest) [] = termAt rest [] := by
  simp [termAt, pyGet, hk]

theorem termAt_cons_child_eq {k : String} {c rest : List (String × Entry)}
    (qs' : List String) :
    termAt ((k, Entry.child c) :: rest) (k :: qs') = termAt c qs' := by
  simp [termAt, pyGet]

theorem termAt_cons_child_ne {k q : String} {c rest : List (String × Entry)}
    (hq : q ≠ k) (qs' : List String) :
    termAt ((k, Entry.child c) :: rest) (q :: qs')
      = termAt rest (q :: qs') := by
  have hne : k ≠ q := fun he => hq he.symm
  simp [termAt, pyGet, hne]

/-- The flattened traversal of a well-formed node dict succeeds and
returns exactly the terminal values reachable in it: w appears in the
result iff some token path in the dict stores w as its terminal. -/
theorem traverse_char :
    (∀ e, ∀ c, e = Entry.child c → Wf (.child c) →
      ∃ l, traverseSmashD c = .ok l ∧
        ∀ w, w ∈ l ↔ ∃ qs, termAt c qs = some w) ∧
    (∀ d, Wf (.child d) → ∃ l, traverseSmashD d = .ok l ∧
      ∀ w, w ∈ l ↔ ∃ qs, termAt d qs = some w) := by
  refine Entry.mutual_ind _ _ ?_ ?_ ?_ ?_
  · intro s c hc
    exact absurd hc (by simp)
  · intro d hd c hc hwf
    cases hc
    exact hd hwf
  · intro _
    refine ⟨[], rfl, ?_⟩
    intro w
    simp [termAt_nil_dict]
  · intro k e rest hPe hQrest hwf
    obtain ⟨he, hrest, hkey, hknotin⟩ := Wf.cons_inv hwf
    obtain ⟨lr, hlr, hmr⟩ := hQrest hrest
    by_cases hk : k = ""
    · subst hk
      obtain ⟨s, hs⟩ := hkey.mp rfl
      subst hs
      refine ⟨s :: lr, ?_, ?_⟩
      · simp only [traverseSmashD, hlr]
        simp [smashValue]
      · intro w
        constructor
        · intro hw
          rcases List.mem_cons.mp hw with h | h
          · subst h
            exact ⟨[], by simp [termAt_cons_sentinel hknotin]⟩
          · obtain ⟨qs, hqs⟩ := (hmr w).mp h
            refine ⟨qs, ?_⟩
            rw [termAt_cons_sentinel hknotin qs]
            cases hqsn : qs with
            | nil =>
                rw [hqsn, termAt_rest_nil_none hknotin] at hqs
                exact Option.noConfusion hqs
            | cons q qs' =>
                rw [if_neg (by simp)]
                exact hqsn ▸ hqs
        · rintro ⟨qs, hqs⟩
          rw [termAt_cons_sentinel hknotin qs] at hqs
          by_cases hqsn : qs = []
          · rw [if_pos hqsn] at hqs
            have hws : s = w := Option.some.inj hqs
            exact hws ▸ List.mem_cons_self s lr
          · rw [if_neg hqsn] at hqs
            exact List.mem_cons_of_mem _ ((hmr w).mpr ⟨qs, hqs⟩)
    · cases e with
      | leaf s => exact absurd (hkey.mpr ⟨s, rfl⟩) hk
      | child c =>
          obtain ⟨le, hle, hme⟩ := hPe c rfl he
          refine ⟨le ++ lr, ?_, ?_⟩
          · simp only [traverseSmashD, traverseSmashE, hle, hlr]
            simp [hk]
          · intro w
            constructor
            · intro hw
              rcases List.mem_append.mp hw with h | h
              · obtain ⟨qs, hqs⟩ := (hme w).mp h
                exact ⟨k :: qs, by rw [termAt_cons_child_eq]; exact hqs⟩
              · obtain ⟨qs, hqs⟩ := (hmr w).mp h
                refine ⟨qs, ?_⟩
                cases qs with
                | nil => rw [termAt_cons_child_nil hk]; exact hqs
                | cons q qs' =>
                    by_cases hq : q = k
                    · subst hq
                      rw [termAt_absent_head hknotin qs'] at hqs
                      exact Option.noConfusion hqs
                    · rw [termAt_cons_child_ne hq qs']
                      exact hqs
            · rintro ⟨qs, hqs⟩
              cases qs with
              | nil =>
                  rw [termAt_cons_child_nil hk] at hqs
                  exact List.mem_append_right _ ((hmr w).mpr ⟨[], hqs⟩)
              | cons q qs' =>
                  by_cases hq : q = k
                  · subst hq
                    rw [termAt_cons_child_eq qs'] at hqs
                    exact List.mem_append_left _ ((hme w).mpr ⟨qs', hqs⟩)
                  · rw [termAt_cons_child_ne hq qs'] at hqs
                    exact List.mem_append_right _
                      ((hmr w).mpr ⟨q :: qs', hqs⟩)

theorem stdTokens_map (p : String) :
    p.data.map String.singleton = stdTokens p := rfl

/-- Walking a prefix character by character from a well-formed dict
succeeds and reaches exactly the terminal values whose token path
extends the prefix's characters. -/
theorem autocompleteFrom_char (cs : List Char) : ∀ d, Wf (.child d) →
    ∃ l, autocompleteFrom (.child d) cs = .ok l ∧
      ∀ w, w ∈ l ↔ ∃ qs,
        termAt d (cs.map String.singleton ++ qs) = some w := by
  induction cs with
  | nil =>
      intro d hwf
      obtain ⟨l, hl, hm⟩ := traverse_char.2 d hwf
      refine ⟨l, ?_, ?_⟩
      · simp only [autocompleteFrom, traverseSmashE, hl]
      · intro w
        simpa using hm w
  | cons c cs ih =>
      intro d hwf
      cases hg : pyGet d (String.singleton c) with
      | none =>
          refine ⟨[], ?_, ?_⟩
          · simp only [autocompleteFrom, hg]
          · intro w
            constructor
            · intro h
              exact absurd h (by simp)
            · rintro ⟨qs, hqs⟩
              rw [show termAt d ((c :: cs).map String.singleton ++ qs)
                  = none from by simp [termAt, hg]] at hqs
              exact Option.noConfusion hqs
      | some e =>
          cases e with
          | leaf s =>
              exact absurd ((hwf.child_key (pyGet_mem hg)).mpr ⟨s, rfl⟩)
                (singleton_ne_empty c)
          | child c' =>
              obtain ⟨l, hl, hm⟩ := ih c' (hwf.child_mem (pyGet_mem hg))
              refine ⟨l, ?_, ?_⟩
              · simp only [autocompleteFrom, hg, hl]
              · intro w
                rw [hm w]
                constructor
                · rintro ⟨qs, hqs⟩
                  exact ⟨qs, by simp [termAt, hg, hqs]⟩
                · rintro ⟨qs, hqs⟩
                  refine ⟨qs, ?_⟩
                  rw [show termAt d ((c :: cs).map String.singleton ++ qs)
                      = termAt c' (cs.map String.singleton ++ qs) from by
                    simp [termAt, hg]] at hqs
                  exact hqs

/-- C1 (amended): for a STANDARD-mode (per-character tokenization) trie
built from a fresh trie by any sequence of insertions, autocomplete(p)
returns exactly the terminal values -- the original keys -- of the
previously added keys that have p as a prefix under the trie's
tokenization, as a set; in particular it returns the empty sequence,
not an error, when no added key has p as a prefix. -/
theorem c1_autocomplete_exact_standard (ws : List String) (dl : String)
    (t : Trie) (p : String)
    (hbuild : (freshTrie .STANDARD dl).update ws = (t, none)) :
    ∃ l, t.autocomplete p = .ok l ∧
      (∀ w, w ∈ l ↔ (w ∈ ws ∧ stdTokens p <+: stdTokens w)) ∧
      ((∀ w ∈ ws, ¬ stdTokens p <+: stdTokens w) → l = []) := by
  have hchar := update_std_char ws (freshTrie .STANDARD dl) rfl Wf.nil
  have ht : ((freshTrie .STANDARD dl).update ws).1 = t := by
    rw [hbuild]
  rw [ht] at hchar
  obtain ⟨l, hl, hm⟩ := autocompleteFrom_char p.data t.root hchar.2.1
  have hmm : ∀ w, w ∈ l ↔ (w ∈ ws ∧ stdTokens p <+: stdTokens w) := by
    intro w
    rw [hm w]
    constructor
    · rintro ⟨qs, hqs⟩
      rw [stdTokens_map] at hqs
      rw [hchar.2.2 (stdTokens p ++ qs) w] at hqs
      rcases hqs with ⟨hmem, htok⟩ | ⟨hat, _⟩
      · exact ⟨hmem, ⟨qs, htok.symm⟩⟩
      · rw [show termAt (freshTrie .STANDARD dl).root (stdTokens p ++ qs)
            = none from termAt_nil_dict _] at hat
        exact Option.noConfusion hat
    · rintro ⟨hmem, qs, hpre⟩
      refine ⟨qs, ?_⟩
      rw [stdTokens_map, hchar.2.2 (stdTokens p ++ qs) w]
      exact Or.inl ⟨hmem, hpre.symm⟩
  refine ⟨l, hl, hmm, ?_⟩
  intro hno
  rw [List.eq_nil_iff_forall_not_mem]
  intro w hw
  obtain ⟨hmem, hpre⟩ := (hmm w).mp hw
  exact hno w hmem hpre

/-- C1 counterexample: the claim fails for segmented-mode tries.  With
delimiter ":", after add("a:b:c"), the prefix "a:b" tokenizes to
["a", "b"], a token-prefix of ["a", "b", "c"], so the claim demands
that autocomplete("a:b") return {"a:b:c"}; the code walks the raw
prefix per character, hits ':' (not a child token) and returns the
empty sequence. -/
theorem c1_counterexample :
    exExt.add "a:b:c" = .ok exExtABC ∧
    pySplit "a:b" ":" <+: pySplit "a:b:c" ":" ∧
    exExtABC.autocomplete "a:b" = .ok [] ∧
    exExtABC.autocomplete "a:b" ≠ .ok ["a:b:c"] := by
  refine ⟨?_, ?_, rfl, ?_⟩
  · simp only [Trie.add, getIterator, exExt, freshTrie, pySplit_abc]
    rfl
  · rw [pySplit_ab, pySplit_abc]
    exact ⟨["c"], rfl⟩
  · intro h
    rw [show exExtABC.autocomplete "a:b" = .ok [] from rfl] at h
    simp at h

/-- The STANDARD trie built by update(["ab", "ac"]). -/
def exABAC : Trie :=
  ⟨[("a", .child [("b", .child [("", .leaf "ab")]),
      ("c", .child [("", .leaf "ac")])])], .STANDARD, ":", []⟩

theorem c1_witness :
    ∃ l, exABAC.autocomplete "a" = .ok l ∧
      (∀ w, w ∈ l ↔ (w ∈ ["ab", "ac"] ∧ stdTokens "a" <+: stdTokens w)) ∧
      ((∀ w ∈ ["ab", "ac"], ¬ stdTokens "a" <+: stdTokens w) → l = []) :=
  c1_autocomplete_exact_standard ["ab", "ac"] ":" exABAC "a" (by rfl)
